import Mathlib

/-
ImeWatcher: the language-change detector.

A shallow embedding of `src/main.cpp`: the class `LanguageTracker`
(lines 13-32) and the function `updateImeLang` (lines 121-145).

The tracker owns one `std::queue<LANGID>`.  The queue is a list whose head is
the front (oldest element) and whose last element is the back (newest
element).  `pop`, `front` and `back` have undefined behaviour on an empty
`std::queue`; here they return `none` there, and every operation built on
them is written in the `Option` monad, so that a call reaching an empty-queue
access is visible as `none`.
-/

namespace ImeWatcher

/-- The Windows type `LANGID` is an unsigned 16-bit `WORD`.  The tracker only
stores and compares such values, so they are embedded as natural numbers. -/
abbrev LANGID := Nat

/-- Modelled from the spec: the base-language default sample.  The source names
it `LANG_ENGLISH`; the constant is declared in the Windows SDK header
`winnt.h`, which is not under `src/`.  Its SDK value is `0x09`. -/
def LANG_ENGLISH : LANGID := 0x09

/-- Modelled from the spec: the sample written `KO` in the example scenario.
`LANG_KOREAN` is declared in the Windows SDK header `winnt.h` as `0x12`. -/
def LANG_KOREAN : LANGID := 0x12

/-- Modelled from the spec: the "alphanumeric" (non-native) IME status.  The
source names it `IME_CMODE_ALPHANUMERIC`; it is declared in the Windows SDK
header `imm.h` (value `0x0000`), which is not under `src/`. -/
def IME_CMODE_ALPHANUMERIC : Int := 0x0000

/-- Modelled from the spec: the "native" IME status.  The source names it
`IME_CMODE_NATIVE`; it is declared in the Windows SDK header `imm.h`
(value `0x0001`), which is not under `src/`. -/
def IME_CMODE_NATIVE : Int := 0x0001

/-- The contents of a `std::queue<LANGID>`: front first, back last. -/
abbrev Queue := List LANGID

/-- Member `std::queue::size`. -/
def Queue.size (q : Queue) : Nat := q.length

/-- Member `std::queue::empty`. -/
def Queue.empty (q : Queue) : Bool := q.isEmpty

/-- Member `std::queue::push`: appends at the back. -/
def Queue.push (q : Queue) (x : LANGID) : Queue := q ++ [x]

/-- Member `std::queue::pop`: removes the front element; undefined on an empty queue. -/
def Queue.pop : Queue → Option Queue
  | [] => none
  | _ :: rest => some rest

/-- Member `std::queue::front`: the oldest element; undefined on an empty queue. -/
def Queue.front : Queue → Option LANGID
  | [] => none
  | x :: _ => some x

/-- Member `std::queue::back`: the newest element; undefined on an empty queue. -/
def Queue.back : Queue → Option LANGID
  | [] => none
  | [x] => some x
  | _ :: y :: rest => Queue.back (y :: rest)

/-- Class `LanguageTracker` (main.cpp:13-32): its only member is `_queue`. -/
structure LanguageTracker where
  _queue : Queue
  deriving DecidableEq, Repr

namespace LanguageTracker

/-- A default-constructed tracker: the queue is empty. -/
def fresh : LanguageTracker := { _queue := [] }

/-- Method `LanguageTracker::update` (main.cpp:18-23). -/
def update (t : LanguageTracker) (new_lang : LANGID) : Option LanguageTracker :=
  if Queue.size t._queue ≥ 2 then
    (Queue.pop t._queue).map (fun q => { _queue := Queue.push q new_lang })
  else
    some { _queue := Queue.push t._queue new_lang }

/-- Method `LanguageTracker::isChanged` (main.cpp:25-27).  The `&&` short-circuits:
`back` and `front` are evaluated only when the queue is not empty. -/
def isChanged (t : LanguageTracker) : Option Bool :=
  if Queue.empty t._queue then
    some false
  else
    (Queue.back t._queue).bind (fun b =>
      (Queue.front t._queue).bind (fun f => some (b != f)))

/-- Method `LanguageTracker::current` (main.cpp:29-31). -/
def current (t : LanguageTracker) : Option LANGID :=
  if Queue.empty t._queue then some LANG_ENGLISH else Queue.back t._queue

/-- The tracker after a sequence of `update` calls, oldest sample first. -/
def updates : LanguageTracker → List LANGID → Option LanguageTracker
  | t, [] => some t
  | t, s :: rest => (update t s).bind (fun t1 => updates t1 rest)

/-- The states a tracker can be in: those obtained from the empty tracker by
some sequence of `update` calls (the queue is private). -/
def Reachable (t : LanguageTracker) : Prop :=
  ∃ samples : List LANGID, updates fresh samples = some t

/-- One call of a public method of the tracker. -/
inductive Call where
  | update (sample : LANGID)
  | isChanged
  | current
  deriving DecidableEq, Repr

/-- What a call returns: nothing, a flag, or a sample. -/
inductive Reply where
  | done
  | flag (b : Bool)
  | lang (l : LANGID)
  deriving DecidableEq, Repr

/-- Whether the call is one of the two `const` query methods. -/
def Call.isQuery : Call → Bool
  | Call.update _ => false
  | Call.isChanged => true
  | Call.current => true

/-- Performs one call: the tracker afterwards and the value returned.
`isChanged` and `current` are `const` methods that only read `_queue`. -/
def step (t : LanguageTracker) : Call → Option (LanguageTracker × Reply)
  | Call.update s => (update t s).map (fun t1 => (t1, Reply.done))
  | Call.isChanged => (isChanged t).map (fun b => (t, Reply.flag b))
  | Call.current => (current t).map (fun l => (t, Reply.lang l))

/-- Performs a sequence of calls, collecting the returned values in order. -/
def runCalls : LanguageTracker → List Call → Option (LanguageTracker × List Reply)
  | t, [] => some (t, [])
  | t, c :: rest =>
    (step t c).bind (fun p =>
      (runCalls p.1 rest).map (fun r => (r.1, p.2 :: r.2)))

/-- The lock-step use of the tracker: for each sample, `update` and then
read `isChanged()` and `current()`; the readings are collected in order. -/
def lockStep : LanguageTracker → List LANGID → Option (List (Bool × LANGID))
  | _, [] => some []
  | t, s :: rest =>
    (update t s).bind (fun t1 =>
      (isChanged t1).bind (fun ch =>
        (current t1).bind (fun cur =>
          (lockStep t1 rest).map (fun obs => (ch, cur) :: obs))))

end LanguageTracker

open LanguageTracker

/-- The tail of `updateImeLang` (main.cpp:141-144): when `isChanged()` holds,
the name of `current()` is printed and the (stub) notification is sent.  The
result is the tracker and the language notified, if any. -/
def reportChange (tracker : LanguageTracker) : Option (LanguageTracker × Option LANGID) :=
  (isChanged tracker).bind (fun ch =>
    if ch then (current tracker).map (fun cur => (tracker, some cur))
    else some (tracker, none))

/-- Function `updateImeLang` (main.cpp:121-145).  The static tracker is passed in and
returned; `status` is the result of the `SendMessage` query and `lang` the
result of `getKeyboardLayout()`. -/
def updateImeLang (tracker : LanguageTracker) (status : Int) (lang : LANGID) :
    Option (LanguageTracker × Option LANGID) :=
  (if status = IME_CMODE_NATIVE then update tracker lang
   else if status = IME_CMODE_ALPHANUMERIC then update tracker LANG_ENGLISH
   else update tracker LANG_ENGLISH).bind reportChange

/-- The number of adjacent pairs of samples that differ. -/
def adjacentUnequal : List LANGID → Nat
  | a :: b :: rest => (if a ≠ b then 1 else 0) + adjacentUnequal (b :: rest)
  | _ => 0

/-- The readings the specification predicts for a run that starts when the
most recent sample is `prev` (`none` on the empty tracker): a change is
reported when there is a preceding sample and it differs. -/
def expectedFrom : Option LANGID → List LANGID → List (Bool × LANGID)
  | _, [] => []
  | prev, s :: rest =>
    (decide (prev.isSome = true ∧ prev ≠ some s), s) :: expectedFrom (some s) rest


-- Facts about the queue primitives.

theorem Queue.back_push (q : Queue) (x : LANGID) : Queue.back (Queue.push q x) = some x := by
  induction q with
  | nil => rfl
  | cons a rest ih =>
    cases rest with
    | nil => rfl
    | cons b rest2 =>
      have h : Queue.push (a :: b :: rest2) x = a :: b :: (rest2 ++ [x]) := rfl
      rw [h, Queue.back]
      exact ih

namespace LanguageTracker

-- The three shapes of a tracker whose queue holds at most two samples.

theorem shape_of_le_two (t : LanguageTracker) (h : Queue.size t._queue ≤ 2) :
    t = { _queue := [] } ∨ (∃ a, t = { _queue := [a] }) ∨ ∃ a b, t = { _queue := [a, b] } := by
  obtain ⟨q⟩ := t
  match q, h with
  | [], _ => exact Or.inl rfl
  | [a], _ => exact Or.inr (Or.inl ⟨a, rfl⟩)
  | [a, b], _ => exact Or.inr (Or.inr ⟨a, b, rfl⟩)
  | _ :: _ :: _ :: rest, h => simp [Queue.size] at h

theorem update_nil (s : LANGID) : update { _queue := [] } s = some { _queue := [s] } := rfl

theorem update_one (c s : LANGID) :
    update { _queue := [c] } s = some { _queue := [c, s] } := rfl

theorem update_two (p c s : LANGID) :
    update { _queue := [p, c] } s = some { _queue := [c, s] } := rfl

/-- On every queue, reachable or not, `update` succeeds: `pop` is guarded by
the size test. -/
theorem update_eq (t : LanguageTracker) (s : LANGID) :
    update t s =
      some { _queue := (if 2 ≤ t._queue.length then t._queue.tail else t._queue) ++ [s] } := by
  obtain ⟨q⟩ := t
  match q with
  | [] => rfl
  | [a] => rfl
  | a :: b :: rest => simp [update, Queue.size, Queue.pop, Queue.push]

theorem isChanged_total (t : LanguageTracker) : ∃ b, isChanged t = some b := by
  obtain ⟨q⟩ := t
  cases q with
  | nil => exact ⟨false, rfl⟩
  | cons a rest =>
    have hb : ∃ y, Queue.back (a :: rest) = some y := by
      induction rest generalizing a with
      | nil => exact ⟨a, rfl⟩
      | cons b rest2 ih =>
        obtain ⟨y, hy⟩ := ih b
        exact ⟨y, by rw [Queue.back]; exact hy⟩
    obtain ⟨y, hy⟩ := hb
    exact ⟨y != a, by simp [isChanged, Queue.empty, Queue.front, hy]⟩

theorem current_total (t : LanguageTracker) : ∃ l, current t = some l := by
  obtain ⟨q⟩ := t
  cases q with
  | nil => exact ⟨LANG_ENGLISH, rfl⟩
  | cons a rest =>
    have hb : ∃ y, Queue.back (a :: rest) = some y := by
      induction rest generalizing a with
      | nil => exact ⟨a, rfl⟩
      | cons b rest2 ih =>
        obtain ⟨y, hy⟩ := ih b
        exact ⟨y, by rw [Queue.back]; exact hy⟩
    obtain ⟨y, hy⟩ := hb
    exact ⟨y, by simp [current, Queue.empty, hy]⟩

theorem update_size_le_two (t t1 : LanguageTracker) (s : LANGID)
    (h : Queue.size t._queue ≤ 2) (hu : update t s = some t1) :
    Queue.size t1._queue ≤ 2 := by
  rcases shape_of_le_two t h with rfl | ⟨a, rfl⟩ | ⟨a, b, rfl⟩
  · rw [update_nil] at hu; cases hu; simp [Queue.size]
  · rw [update_one] at hu; cases hu; simp [Queue.size]
  · rw [update_two] at hu; cases hu; simp [Queue.size]

theorem updates_size_le_two (samples : List LANGID) (t t1 : LanguageTracker)
    (h : Queue.size t._queue ≤ 2) (hu : updates t samples = some t1) :
    Queue.size t1._queue ≤ 2 := by
  induction samples generalizing t with
  | nil =>
    simp only [updates, Option.some.injEq] at hu
    subst hu; exact h
  | cons s rest ih =>
    rw [updates, update_eq] at hu
    simp only [Option.some_bind] at hu
    refine ih _ ?_ hu
    exact update_size_le_two t _ s h (update_eq t s)

theorem updates_append (t : LanguageTracker) (xs ys : List LANGID) :
    updates t (xs ++ ys) = (updates t xs).bind (fun t1 => updates t1 ys) := by
  induction xs generalizing t with
  | nil => rfl
  | cons x rest ih =>
    simp only [List.cons_append, updates]
    rw [update_eq]
    simp only [Option.some_bind]
    exact ih _

theorem updates_total (t : LanguageTracker) (samples : List LANGID) :
    ∃ t1, updates t samples = some t1 := by
  induction samples generalizing t with
  | nil => exact ⟨t, rfl⟩
  | cons s rest ih =>
    rw [updates, update_eq]
    simp only [Option.some_bind]
    exact ih _

theorem Reachable.size_le_two {t : LanguageTracker} (h : Reachable t) :
    Queue.size t._queue ≤ 2 := by
  obtain ⟨samples, hs⟩ := h
  exact updates_size_le_two samples fresh t (by simp [fresh, Queue.size]) hs

theorem Reachable.shape {t : LanguageTracker} (h : Reachable t) :
    t = { _queue := [] } ∨ (∃ a, t = { _queue := [a] }) ∨ ∃ a b, t = { _queue := [a, b] } :=
  shape_of_le_two t h.size_le_two

theorem Reachable.update {t t1 : LanguageTracker} {s : LANGID} (h : Reachable t)
    (hu : update t s = some t1) : Reachable t1 := by
  obtain ⟨samples, hs⟩ := h
  refine ⟨samples ++ [s], ?_⟩
  rw [updates_append, hs]
  simp [updates, hu]

/-- After two updates from a reachable state only the two new samples remain. -/
theorem update_update (t : LanguageTracker) (h : Queue.size t._queue ≤ 2) (a b : LANGID) :
    (update t a).bind (fun t1 => update t1 b) = some { _queue := [a, b] } := by
  rcases shape_of_le_two t h with rfl | ⟨x, rfl⟩ | ⟨x, y, rfl⟩ <;> rfl

theorem bne_eq_decide_ne (b c : LANGID) : (c != b) = decide (b ≠ c) := by
  by_cases h : b = c
  · subst h; simp
  · have h2 : c ≠ b := fun e => h e.symm
    simp [h, h2]

theorem isChanged_nil : isChanged { _queue := [] } = some false := rfl

theorem isChanged_one (a : LANGID) : isChanged { _queue := [a] } = some false := by
  simp [isChanged, Queue.empty, Queue.back, Queue.front]

theorem isChanged_two (a b : LANGID) : isChanged { _queue := [a, b] } = some (b != a) := by
  simp [isChanged, Queue.empty, Queue.back, Queue.front]

theorem current_one (a : LANGID) : current { _queue := [a] } = some a := by
  simp [current, Queue.empty, Queue.back]

theorem current_two (a b : LANGID) : current { _queue := [a, b] } = some b := by
  simp [current, Queue.empty, Queue.back]

/-- Every sample list is empty, a single sample, or ends in two samples. -/
theorem list_last_two (samples : List LANGID) :
    samples = [] ∨ (∃ a, samples = [a]) ∨ ∃ pre a b, samples = pre ++ [a, b] := by
  rcases List.eq_nil_or_concat samples with h | ⟨init, b, h⟩
  · exact Or.inl h
  · rcases List.eq_nil_or_concat init with h2 | ⟨pre, a, h2⟩
    · subst h2; exact Or.inr (Or.inl ⟨b, by simpa using h⟩)
    · subst h2; exact Or.inr (Or.inr ⟨pre, a, b, by simpa using h⟩)

/-- The state after a run that ends with the samples `a`, `b`. -/
theorem updates_last_two (pre : List LANGID) (a b : LANGID) :
    updates fresh (pre ++ [a, b]) = some { _queue := [a, b] } := by
  rw [updates_append]
  obtain ⟨t, ht⟩ := updates_total fresh pre
  rw [ht]
  simp only [Option.some_bind, updates]
  have hr : Reachable t := ⟨pre, ht⟩
  have := update_update t hr.size_le_two a b
  cases hu : LanguageTracker.update t a with
  | none => rw [hu] at this; simp at this
  | some t1 =>
    rw [hu] at this
    simp only [Option.some_bind] at this ⊢
    rw [this]; rfl

end LanguageTracker

namespace LanguageTracker

theorem step_total (t : LanguageTracker) (c : Call) : ∃ p, step t c = some p := by
  cases c with
  | update s => exact ⟨_, by rw [step, update_eq]; rfl⟩
  | isChanged =>
    obtain ⟨b, hb⟩ := isChanged_total t
    exact ⟨(t, Reply.flag b), by rw [step, hb]; rfl⟩
  | current =>
    obtain ⟨l, hl⟩ := current_total t
    exact ⟨(t, Reply.lang l), by rw [step, hl]; rfl⟩

theorem runCalls_total (cs : List Call) (t : LanguageTracker) :
    ∃ r, runCalls t cs = some r ∧ r.2.length = cs.length := by
  induction cs generalizing t with
  | nil => exact ⟨(t, []), rfl, rfl⟩
  | cons c rest ih =>
    obtain ⟨p, hp⟩ := step_total t c
    obtain ⟨r, hr, hlen⟩ := ih p.1
    refine ⟨(r.1, p.2 :: r.2), ?_, by simp [hlen]⟩
    rw [runCalls, hp]
    simp only [Option.some_bind, hr, Option.map_some']

theorem runCalls_queries (cs : List Call) (t : LanguageTracker) (b : Bool) (l : LANGID)
    (hb : isChanged t = some b) (hl : current t = some l)
    (hq : cs.all Call.isQuery = true) :
    runCalls t cs =
      some (t, cs.map (fun c => if c = Call.isChanged then Reply.flag b else Reply.lang l)) := by
  induction cs with
  | nil => rfl
  | cons c rest ih =>
    simp only [List.all_cons, Bool.and_eq_true] at hq
    have ih2 := ih hq.2
    cases c with
    | update s => simp [Call.isQuery] at hq
    | isChanged => simp [runCalls, step, hb, ih2]
    | current => simp [runCalls, step, hl, ih2]

theorem reportChange_total (t : LanguageTracker) : ∃ r, reportChange t = some r := by
  obtain ⟨b, hb⟩ := isChanged_total t
  obtain ⟨l, hl⟩ := current_total t
  cases b with
  | false => exact ⟨(t, none), by simp [reportChange, hb]⟩
  | true => exact ⟨(t, some l), by simp [reportChange, hb, hl]⟩

end LanguageTracker

open LanguageTracker

/-- Claim C1.  After any sequence of `update` calls on the empty tracker,
`isChanged()` returns a value, and that value is true exactly when the
sequence ends in two samples that differ.  In particular it is false on the
empty tracker, false after the first update ever made, and false after
`update(a); update(a)` from the state reached by any earlier samples. -/
theorem C1_isChanged_iff_last_two_differ (samples pre : List LANGID) (s a : LANGID) :
    (∃ r, (updates fresh samples).bind isChanged = some r ∧
        (r = true ↔ ∃ p x y, samples = p ++ [x, y] ∧ y ≠ x)) ∧
    isChanged fresh = some false ∧
    (update fresh s).bind isChanged = some false ∧
    (updates fresh pre).bind (fun t =>
      (update t a).bind (fun t1 => (update t1 a).bind isChanged)) = some false := by
  refine ⟨?_, rfl, ?_, ?_⟩
  · rcases list_last_two samples with h | ⟨x, h⟩ | ⟨p, x, y, h⟩
    · subst h
      refine ⟨false, rfl, ?_⟩
      simp
    · subst h
      refine ⟨false, ?_, ?_⟩
      · simp [updates, fresh, update_nil, isChanged_one]
      · constructor
        · intro h; cases h
        · rintro ⟨p, u, v, hp, _⟩
          have := congrArg List.length hp
          simp at this
    · subst h
      refine ⟨y != x, ?_, ?_⟩
      · rw [updates_last_two]
        simp [isChanged_two]
      · constructor
        · intro hne
          exact ⟨p, x, y, rfl, by simpa using hne⟩
        · rintro ⟨p2, u, v, hp, huv⟩
          have h1 : p ++ [x, y] = (p ++ [x]) ++ [y] := by simp
          have h2 : p2 ++ [u, v] = (p2 ++ [u]) ++ [v] := by simp
          rw [h1, h2] at hp
          have h3 := List.append_inj' hp rfl
          have h4 := List.append_inj' h3.1 rfl
          have hy : y = v := by simpa using h3.2
          have hx : x = u := by simpa using h4.2
          subst hy; subst hx
          simpa using huv
  · simp [fresh, update_nil, isChanged_one]
  · obtain ⟨t, ht⟩ := updates_total fresh pre
    rw [ht]
    have hr : Reachable t := ⟨pre, ht⟩
    have h2 := update_update t hr.size_le_two a a
    simp only [Option.some_bind]
    cases hu : update t a with
    | none => rw [hu] at h2; simp at h2
    | some t1 =>
      rw [hu] at h2
      simp only [Option.some_bind] at h2 ⊢
      rw [h2]
      simp [isChanged_two]

/-- Claim C3.  From every reachable state, `update(a)` followed by `update(b)`
with `a` different from `b` succeeds and leaves a tracker on which
`isChanged()` returns true and `current()` returns `b`. -/
theorem C3_update_distinct_pair (t : LanguageTracker) (h : Reachable t) (a b : LANGID)
    (hab : a ≠ b) :
    ∃ t2, (update t a).bind (fun t1 => update t1 b) = some t2 ∧
      isChanged t2 = some true ∧ current t2 = some b := by
  refine ⟨{ _queue := [a, b] }, update_update t h.size_le_two a b, ?_, current_two a b⟩
  rw [isChanged_two]
  simp [Ne.symm hab]

/-- Witness for C3: the state after the samples 5, 9, then `update(9)` and
`update(18)`. -/
theorem C3_update_distinct_pair_witness :
    Reachable { _queue := [5, 9] } ∧ (9 : LANGID) ≠ 18 ∧
    ∃ t2, (update { _queue := [5, 9] } 9).bind (fun t1 => update t1 18) = some t2 ∧
      isChanged t2 = some true ∧ current t2 = some 18 :=
  ⟨⟨[5, 9], rfl⟩, by decide,
    C3_update_distinct_pair { _queue := [5, 9] } ⟨[5, 9], rfl⟩ 9 18 (by decide)⟩

/-- Claim C4.  From every reachable state, `update(s)` yields the queue `[s]`
when the queue is empty and `[c, s]` when its most recent sample is `c`
(`back` is `none` exactly on the empty queue); and after `update(a)`,
`update(b)`, `update(c)` the queue is `[b, c]` and `isChanged()` is `b != c`. -/
theorem C4_update_keeps_last_two (t : LanguageTracker) (h : Reachable t) (s a b c : LANGID) :
    (Queue.back t._queue = none ↔ t._queue = []) ∧
    update t s = some (LanguageTracker.mk
      (match Queue.back t._queue with
       | none => [s]
       | some c0 => [c0, s])) ∧
    (update t a).bind (fun t1 => (update t1 b).bind (fun t2 => update t2 c))
      = some { _queue := [b, c] } ∧
    (update t a).bind (fun t1 => (update t1 b).bind (fun t2 =>
      (update t2 c).bind isChanged)) = some (decide (b ≠ c)) := by
  rcases h.shape with rfl | ⟨x, rfl⟩ | ⟨x, y, rfl⟩
  · refine ⟨by simp [Queue.back], rfl, rfl, ?_⟩
    simp only [update_nil, update_one, update_two, isChanged_two, Option.some_bind,
      bne_eq_decide_ne]
  · refine ⟨by simp [Queue.back], rfl, rfl, ?_⟩
    simp only [update_nil, update_one, update_two, isChanged_two, Option.some_bind,
      bne_eq_decide_ne]
  · refine ⟨by simp [Queue.back], rfl, rfl, ?_⟩
    simp only [update_nil, update_one, update_two, isChanged_two, Option.some_bind,
      bne_eq_decide_ne]

/-- Witness for C4: the state after the samples 5, 9. -/
theorem C4_update_keeps_last_two_witness :
    Reachable { _queue := [5, 9] } ∧
    update { _queue := [5, 9] } 18 = some { _queue := [9, 18] } ∧
    (update { _queue := [5, 9] } 1).bind (fun t1 => (update t1 2).bind (fun t2 =>
      (update t2 3).bind isChanged)) = some true :=
  ⟨⟨[5, 9], rfl⟩,
    (C4_update_keeps_last_two { _queue := [5, 9] } ⟨[5, 9], rfl⟩ 18 1 2 3).2.1,
    (C4_update_keeps_last_two { _queue := [5, 9] } ⟨[5, 9], rfl⟩ 18 1 2 3).2.2.2⟩

/-- Claim C5.  On the tracker that was never updated `current()` returns
`LANG_ENGLISH`, and on every tracker state (reachable or not) `update(s)`
succeeds and `current()` then returns `s`. -/
theorem C5_current_default_and_latest (t : LanguageTracker) (s : LANGID) :
    current fresh = some LANG_ENGLISH ∧ (update t s).bind current = some s := by
  refine ⟨rfl, ?_⟩
  rw [update_eq]
  simp only [Option.some_bind, current]
  have hne : Queue.empty
      ((if 2 ≤ t._queue.length then t._queue.tail else t._queue) ++ [s]) = false := by
    simp [Queue.empty]
  rw [hne]
  exact Queue.back_push _ s

/-- Claim C6.  Every reachable state holds at most 2 samples; `update(s)` on it
succeeds and gives a reachable state that holds at least 1 and at most 2
samples, with `s` at the back. -/
theorem C6_queue_bounded (t : LanguageTracker) (h : Reachable t) (s : LANGID) :
    Queue.size t._queue ≤ 2 ∧
    ∃ t1, update t s = some t1 ∧ Reachable t1 ∧
      1 ≤ Queue.size t1._queue ∧ Queue.size t1._queue ≤ 2 ∧
      Queue.back t1._queue = some s := by
  refine ⟨h.size_le_two, _, update_eq t s, h.update (update_eq t s), ?_,
    (h.update (update_eq t s)).size_le_two, Queue.back_push _ s⟩
  simp [Queue.size]

/-- Witness for C6: the state after the samples 5, 9, updated with 18. -/
theorem C6_queue_bounded_witness :
    Reachable { _queue := [5, 9] } ∧
    Queue.size ({ _queue := [5, 9] } : LanguageTracker)._queue ≤ 2 ∧
    ∃ t1, update { _queue := [5, 9] } 18 = some t1 ∧ Reachable t1 ∧
      1 ≤ Queue.size t1._queue ∧ Queue.size t1._queue ≤ 2 ∧
      Queue.back t1._queue = some 18 :=
  ⟨⟨[5, 9], rfl⟩, C6_queue_bounded { _queue := [5, 9] } ⟨[5, 9], rfl⟩ 18⟩

/-- Claim C7.  No call reaches an empty-queue access: on every tracker state
`update`, `isChanged` and `current` return a value, and every sequence of
calls on the empty tracker, with any samples, runs to the end and returns one
reply per call. -/
theorem C7_no_failure_modes (t : LanguageTracker) (s : LANGID) (cs : List Call) :
    (∃ t1, update t s = some t1) ∧
    (∃ b, isChanged t = some b) ∧
    (∃ l, current t = some l) ∧
    ∃ r, runCalls fresh cs = some r ∧ r.2.length = cs.length :=
  ⟨⟨_, update_eq t s⟩, isChanged_total t, current_total t, runCalls_total cs fresh⟩

/-- Claim C8.  In `updateImeLang`, when the IME status is not
`IME_CMODE_NATIVE` the call made is `update(LANG_ENGLISH)` whatever the
keyboard layout is, so two layouts `X` and `Y` give the same tracker and the
same notification decision, and the call returns; this covers the status
`IME_CMODE_ALPHANUMERIC`.  With the status `IME_CMODE_NATIVE` the call made is
`update(X)`. -/
theorem C8_non_native_maps_to_base (tracker : LanguageTracker) (status : Int)
    (hs : status ≠ IME_CMODE_NATIVE) (X Y : LANGID) :
    updateImeLang tracker status X = (update tracker LANG_ENGLISH).bind reportChange ∧
    updateImeLang tracker status X = updateImeLang tracker status Y ∧
    (∃ r, updateImeLang tracker status X = some r) ∧
    updateImeLang tracker IME_CMODE_ALPHANUMERIC X
      = (update tracker LANG_ENGLISH).bind reportChange ∧
    updateImeLang tracker IME_CMODE_NATIVE X = (update tracker X).bind reportChange := by
  have h1 : ∀ Z, updateImeLang tracker status Z
      = (update tracker LANG_ENGLISH).bind reportChange := by
    intro Z
    simp [updateImeLang, hs]
  refine ⟨h1 X, by rw [h1 X, h1 Y], ?_, ?_, ?_⟩
  · rw [h1 X, update_eq]
    simp only [Option.some_bind]
    exact reportChange_total _
  · have hne : IME_CMODE_ALPHANUMERIC ≠ IME_CMODE_NATIVE := by decide
    simp [updateImeLang, hne]
  · simp [updateImeLang]

/-- Witness for C8: status 7 with the layouts Korean and 0x11 on the tracker
holding the samples 9, 18. -/
theorem C8_non_native_maps_to_base_witness :
    (7 : Int) ≠ IME_CMODE_NATIVE ∧
    updateImeLang { _queue := [9, 18] } 7 LANG_KOREAN
      = updateImeLang { _queue := [9, 18] } 7 0x11 ∧
    updateImeLang { _queue := [9, 18] } 7 LANG_KOREAN
      = (update { _queue := [9, 18] } LANG_ENGLISH).bind reportChange :=
  ⟨by decide,
    (C8_non_native_maps_to_base { _queue := [9, 18] } 7 (by decide) LANG_KOREAN 0x11).2.1,
    (C8_non_native_maps_to_base { _queue := [9, 18] } 7 (by decide) LANG_KOREAN 0x11).1⟩

/-- Claim C9.  The two queries return a value and leave the tracker as it
was: on every state, any sequence of `isChanged()` and `current()` calls ends
in the same state and every call of one kind returns the same value. -/
theorem C9_queries_are_pure (t : LanguageTracker) (cs : List Call)
    (hq : cs.all Call.isQuery = true) :
    ∃ b l, isChanged t = some b ∧ current t = some l ∧
      step t Call.isChanged = some (t, Reply.flag b) ∧
      step t Call.current = some (t, Reply.lang l) ∧
      runCalls t cs =
        some (t, cs.map (fun c => if c = Call.isChanged then Reply.flag b else Reply.lang l)) := by
  obtain ⟨b, hb⟩ := isChanged_total t
  obtain ⟨l, hl⟩ := current_total t
  exact ⟨b, l, hb, hl, by simp [step, hb], by simp [step, hl],
    runCalls_queries cs t b l hb hl hq⟩

/-- Witness for C9: three queries on the tracker holding the samples 9, 18. -/
theorem C9_queries_are_pure_witness :
    [Call.isChanged, Call.current, Call.isChanged].all Call.isQuery = true ∧
    ∃ b l, isChanged { _queue := [9, 18] } = some b ∧ current { _queue := [9, 18] } = some l ∧
      step { _queue := [9, 18] } Call.isChanged = some ({ _queue := [9, 18] }, Reply.flag b) ∧
      step { _queue := [9, 18] } Call.current = some ({ _queue := [9, 18] }, Reply.lang l) ∧
      runCalls { _queue := [9, 18] } [Call.isChanged, Call.current, Call.isChanged] =
        some ({ _queue := [9, 18] },
          [Call.isChanged, Call.current, Call.isChanged].map
            (fun c => if c = Call.isChanged then Reply.flag b else Reply.lang l)) :=
  ⟨by decide,
    C9_queries_are_pure { _queue := [9, 18] } [Call.isChanged, Call.current, Call.isChanged]
      (by decide)⟩

/-- Claim C10.  The default of `current()` is not a previous sample: for a
sample `s` other than `LANG_ENGLISH`, the first `update(s)` on the empty
tracker moves `current()` from `LANG_ENGLISH` to `s` while `isChanged()` is
false and `updateImeLang` notifies nothing; on a non-empty reachable state,
`isChanged()` after `update(s2)` is true exactly when `s2` differs from what
`current()` returned before. -/
theorem C10_default_is_not_a_sample (s : LANGID) (hs : s ≠ LANG_ENGLISH)
    (t : LanguageTracker) (ht : Reachable t) (hne : t._queue ≠ []) (s2 : LANGID) :
    current fresh = some LANG_ENGLISH ∧
    (update fresh s).bind current = some s ∧
    (update fresh s).bind current ≠ current fresh ∧
    (update fresh s).bind isChanged = some false ∧
    updateImeLang fresh IME_CMODE_NATIVE s = some ({ _queue := [s] }, none) ∧
    ∃ c r, current t = some c ∧ (update t s2).bind isChanged = some r ∧
      (r = true ↔ s2 ≠ c) := by
  refine ⟨rfl, ?_, ?_, ?_, ?_, ?_⟩
  · simp [fresh, update_nil, current_one]
  · simp only [fresh, update_nil, Option.some_bind, current_one]
    intro h
    exact hs (Option.some.inj h)
  · simp [fresh, update_nil, isChanged_one]
  · simp [updateImeLang, fresh, update_nil, reportChange, isChanged_one]
  · rcases ht.shape with rfl | ⟨x, rfl⟩ | ⟨x, y, rfl⟩
    · exact absurd rfl hne
    · exact ⟨x, s2 != x, current_one x, by simp [update_one, isChanged_two], by simp⟩
    · exact ⟨y, s2 != y, current_two x y, by simp [update_two, isChanged_two], by simp⟩

/-- Witness for C10: the first sample Korean, and the tracker holding 9, 18
updated with 9. -/
theorem C10_default_is_not_a_sample_witness :
    LANG_KOREAN ≠ LANG_ENGLISH ∧ Reachable { _queue := [9, 18] } ∧
    ({ _queue := [9, 18] } : LanguageTracker)._queue ≠ [] ∧
    (update fresh LANG_KOREAN).bind current ≠ current fresh ∧
    (update fresh LANG_KOREAN).bind isChanged = some false ∧
    ∃ c r, current { _queue := [9, 18] } = some c ∧
      (update { _queue := [9, 18] } 9).bind isChanged = some r ∧ (r = true ↔ 9 ≠ c) :=
  ⟨by decide, ⟨[9, 18], rfl⟩, by decide,
    (C10_default_is_not_a_sample LANG_KOREAN (by decide) { _queue := [9, 18] }
      ⟨[9, 18], rfl⟩ (by decide) 9).2.2.1,
    (C10_default_is_not_a_sample LANG_KOREAN (by decide) { _queue := [9, 18] }
      ⟨[9, 18], rfl⟩ (by decide) 9).2.2.2.1,
    (C10_default_is_not_a_sample LANG_KOREAN (by decide) { _queue := [9, 18] }
      ⟨[9, 18], rfl⟩ (by decide) 9).2.2.2.2.2⟩

-- The lock-step run against the predicted readings.

theorem lockStep_eq_expectedFrom (samples : List LANGID) (t : LanguageTracker)
    (h : Queue.size t._queue ≤ 2) :
    lockStep t samples = some (expectedFrom (Queue.back t._queue) samples) := by
  induction samples generalizing t with
  | nil => rfl
  | cons s rest ih =>
    rcases shape_of_le_two t h with rfl | ⟨x, rfl⟩ | ⟨x, y, rfl⟩
    · have ih2 := ih { _queue := [s] } (by simp [Queue.size])
      simp only [lockStep, update_nil, Option.some_bind, isChanged_one, current_one, ih2,
        Option.map_some', expectedFrom, Queue.back]
      simp
    · have ih2 := ih { _queue := [x, s] } (by simp [Queue.size])
      simp only [lockStep, update_one, Option.some_bind, isChanged_two, current_two, ih2,
        Option.map_some', expectedFrom, Queue.back]
      simp [bne_eq_decide_ne]
    · have ih2 := ih { _queue := [y, s] } (by simp [Queue.size])
      simp only [lockStep, update_two, Option.some_bind, isChanged_two, current_two, ih2,
        Option.map_some', expectedFrom, Queue.back]
      simp [bne_eq_decide_ne]

theorem expectedFrom_length (samples : List LANGID) (prev : Option LANGID) :
    (expectedFrom prev samples).length = samples.length := by
  induction samples generalizing prev with
  | nil => rfl
  | cons s rest ih => simp [expectedFrom, ih]

theorem expectedFrom_getElem? (samples : List LANGID) (prev : Option LANGID) (i : Nat) :
    (expectedFrom prev samples)[i]? =
      (samples[i]?).map (fun s =>
        (decide ((if i = 0 then prev else samples[i - 1]?).isSome = true ∧
                 (if i = 0 then prev else samples[i - 1]?) ≠ some s), s)) := by
  induction samples generalizing prev i with
  | nil => simp [expectedFrom]
  | cons s rest ih =>
    cases i with
    | zero => simp [expectedFrom]
    | succ j =>
      have hj : (s :: rest)[j]? = if j = 0 then some s else rest[j - 1]? := by
        cases j <;> simp
      simp only [expectedFrom, List.getElem?_cons_succ, ih, Nat.add_sub_cancel,
        Nat.succ_ne_zero, if_false, hj]

theorem expectedFrom_count (samples : List LANGID) (prev : Option LANGID) :
    ((expectedFrom prev samples).filter (fun o => o.1)).length
      = adjacentUnequal (prev.toList ++ samples) := by
  induction samples generalizing prev with
  | nil => cases prev <;> rfl
  | cons s rest ih =>
    have ih2 := ih (some s)
    simp only [Option.toList, List.singleton_append] at ih2
    cases prev with
    | none =>
      simp [expectedFrom, ih2]
    | some p =>
      by_cases hp : p = s
      · subst hp
        simp [expectedFrom, ih2, adjacentUnequal]
      · simp [expectedFrom, ih2, adjacentUnequal, hp, Nat.add_comm]

/-- Claim C2.  Feeding samples to the empty tracker in lock-step succeeds and
gives one reading per sample; the reading at step `i` reports a change exactly
when `i ≥ 1` and the sample differs from the one before it, and its current
value is the sample; the number of changes reported is the number of adjacent
unequal pairs.  A call of `updateImeLang` notifies exactly when `isChanged()`
holds after its update.  The run `[EN, EN, KO, KO, EN]` reads
`[false, false, true, false, true]` and `[EN, EN, KO, KO, EN]`. -/
theorem C2_lockstep_notifies_per_transition (samples : List LANGID) (t : LanguageTracker)
    (s : LANGID) :
    (∃ obs, lockStep fresh samples = some obs ∧ obs.length = samples.length ∧
      (∀ i, obs[i]? = (samples[i]?).map (fun x =>
        (decide (1 ≤ i ∧ samples[i - 1]? ≠ some x), x))) ∧
      (obs.filter (fun o => o.1)).length = adjacentUnequal samples) ∧
    updateImeLang t IME_CMODE_NATIVE s =
      (update t s).bind (fun t1 => (isChanged t1).bind (fun ch =>
        (current t1).map (fun cur => (t1, if ch = true then some cur else none)))) ∧
    lockStep fresh [LANG_ENGLISH, LANG_ENGLISH, LANG_KOREAN, LANG_KOREAN, LANG_ENGLISH]
      = some [(false, LANG_ENGLISH), (false, LANG_ENGLISH), (true, LANG_KOREAN),
          (false, LANG_KOREAN), (true, LANG_ENGLISH)] := by
  refine ⟨⟨expectedFrom none samples, ?_, expectedFrom_length samples none, ?_, ?_⟩, ?_, ?_⟩
  · exact lockStep_eq_expectedFrom samples fresh (by simp [fresh, Queue.size])
  · intro i
    rw [expectedFrom_getElem?]
    cases hi : samples[i]? with
    | none => rfl
    | some x =>
      simp only [Option.map_some', Option.some.injEq, Prod.mk.injEq, and_true, decide_eq_decide]
      cases i with
      | zero => simp
      | succ j =>
        have hlt : j + 1 < samples.length := by
          rcases Nat.lt_or_ge (j + 1) samples.length with h | h
          · exact h
          · rw [List.getElem?_eq_none h] at hi; cases hi
        have hj : j < samples.length := Nat.lt_of_succ_lt hlt
        simp [List.getElem?_eq_getElem hj]
  · simpa using expectedFrom_count samples none
  · rw [updateImeLang, update_eq]
    simp only [if_true, Option.some_bind, reportChange]
    obtain ⟨b, hb⟩ := isChanged_total
      { _queue := (if 2 ≤ t._queue.length then t._queue.tail else t._queue) ++ [s] }
    obtain ⟨l, hl⟩ := current_total
      { _queue := (if 2 ≤ t._queue.length then t._queue.tail else t._queue) ++ [s] }
    rw [hb, hl]
    cases b <;> simp
  · decide

end ImeWatcher
